import Mathlib

/-!
Shallow embedding of the documentation-navigation script
`.lefthook/pre-commit/link_generator.py`.

Python strings are modelled as `List Char` (a Python `str` is a sequence of
Unicode code points).  The two regular expressions the script uses are
specialised into executable matchers with the exact Python `re` semantics
(leftmost, non-greedy, `.` never matches a newline, `re.sub` does not rescan
removed text).  The file system touched by the orchestrator is modelled as an
association list from path to content.

Functions that are not structurally recursive take an explicit fuel argument
(always instantiated with the length of the traversed list), so that every
definition reduces inside the kernel.
-/

/-- The characters of a string literal. -/
def chars (s : String) : List Char := s.data

/-- Python `needle in haystack` (substring test). -/
def containsSub (m : List Char) : List Char → Bool
  | [] => m.isEmpty
  | c :: rest => m.isPrefixOf (c :: rest) || containsSub m rest

/-- Whitespace for Python `str.strip()` (the Latin-1 whitespace code points). -/
def isPySpace (c : Char) : Bool :=
  c = ' ' || c = '\t' || c = '\n' || c = '\r' || c = '\x0b' || c = '\x0c' ||
  c = '\x1c' || c = '\x1d' || c = '\x1e' || c = '\x1f' || c = '\x85' || c = '\xa0'

/-- Python `str.strip()`: drop whitespace from both ends. -/
def pyStrip (l : List Char) : List Char :=
  ((l.dropWhile isPySpace).reverse.dropWhile isPySpace).reverse

/-- Worker for Python `str.title()`: the boolean records whether the previous
character was alphabetic (ASCII model of Python's "cased"). -/
def titleGo : Bool → List Char → List Char
  | _, [] => []
  | prevAlpha, c :: rest =>
    if c.isAlpha then
      (if prevAlpha then c.toLower else c.toUpper) :: titleGo true rest
    else c :: titleGo false rest

/-- Python `str.title()`. -/
def pyTitle (l : List Char) : List Char := titleGo false l

/-- `pathlib.Path(p).name` (POSIX): ignore trailing slashes, then take the part
after the last slash. -/
def pathName (p : List Char) : List Char :=
  ((p.reverse.dropWhile (fun c => c == '/')).takeWhile (fun c => c != '/')).reverse

/-- `pathlib.Path(p).stem`: the final component with its last extension removed
(an extension needs a dot that is neither the first nor the last character of
the name). -/
def pathStem (p : List Char) : List Char :=
  let n := pathName p
  let extLen := (n.reverse.takeWhile (fun c => c != '.')).length
  let i := n.length - 1 - extLen
  if '.' ∈ n ∧ 0 < i ∧ i < n.length - 1 then n.take i else n

/-- The title put into a navigation label:
`Path(p).stem.replace("_", " ").title()`. -/
def deriveTitle (p : List Char) : List Char :=
  pyTitle ((pathStem p).map (fun c => if c == '_' then ' ' else c))

/-- `get_relative_link`: `Path(file_path).name`. -/
def get_relative_link (p : List Char) : List Char := pathName p

/-- The string appended for a present `prev_file`. -/
def prevEntry (p : List Char) : List Char :=
  chars "[← Previous: " ++ deriveTitle p ++ chars "](" ++ get_relative_link p ++ chars ")"

/-- The string appended for a present `next_file`. -/
def nextEntry (p : List Char) : List Char :=
  chars "[Next: " ++ deriveTitle p ++ chars " →](" ++ get_relative_link p ++ chars ")"

/-- One `if prev_file:` / `if next_file:` block: a `None` or empty-string
argument is falsy and contributes nothing. -/
def optEntry (f : List Char → List Char) : Option (List Char) → List (List Char)
  | none => []
  | some p => if p = [] then [] else [f p]

/-- The `navigation` list built by `add_navigation_links`. -/
def navEntries (prev next : Option (List Char)) : List (List Char) :=
  optEntry prevEntry prev ++ optEntry nextEntry next

/-- Python `sep.join(xs)`. -/
def joinSep (sep : List Char) : List (List Char) → List Char
  | [] => []
  | [x] => x
  | x :: y :: rest => x ++ sep ++ joinSep sep (y :: rest)

/-- `re.sub(marker + ".*?\n", "", l)` for a literal `marker`: scan left to
right; wherever `marker` matches and a newline follows somewhere after it,
remove everything from the marker through that first newline and resume after
it (Python's `re.sub` does not rescan text to the left of the resume point).
If no newline follows the marker there is no match there, nor anywhere later.
Fuel-indexed; `reSubLine` supplies the fuel. -/
def reSubAux (marker : List Char) : Nat → List Char → List Char
  | 0, l => l
  | fuel + 1, l =>
    match l with
    | [] => []
    | c :: rest =>
      if marker.isPrefixOf (c :: rest) then
        let after := (c :: rest).drop marker.length
        if '\n' ∈ after then
          reSubAux marker fuel ((after.dropWhile (fun x => x != '\n')).drop 1)
        else c :: rest
      else c :: reSubAux marker fuel rest

/-- `re.sub(marker + ".*?\n", "", l)`. -/
def reSubLine (marker l : List Char) : List Char := reSubAux marker l.length l

/-- The literal start of a "previous" navigation segment, `"[← Previous:"`. -/
def pmark : List Char := chars "[← Previous:"

/-- The literal start of a "next" navigation segment, `"[Next:"`. -/
def nmark : List Char := chars "[Next:"

/-- The substring tested by `"← Previous:" in content`. -/
def checkPrevS : List Char := chars "← Previous:"

/-- The substring tested by `"Next:" in content`. -/
def checkNextS : List Char := chars "Next:"

/-- `nav_text = " | ".join(navigation)`. -/
def navLine (prev next : Option (List Char)) : List Char :=
  joinSep (chars " | ") (navEntries prev next)

/-- The `if "\u2190 Previous:" in content or "Next:" in content:` block — the
two `re.sub` calls that strip previously present navigation lines. -/
def cleanNavLines (content : List Char) : List Char :=
  if containsSub checkPrevS content || containsSub checkNextS content then
    reSubLine nmark (reSubLine pmark content)
  else content

/-- `add_navigation_links(content, prev_file, next_file)`.  The final string is
`f"{nav_block}\n{content.strip()}\n{nav_block}\n"` with
`nav_block = f"\n{nav_text}\n"`. -/
def add_navigation_links (content : List Char) (prev next : Option (List Char)) :
    List Char :=
  if navEntries prev next = [] then content
  else
    ['\n'] ++ navLine prev next ++ ['\n', '\n'] ++
      pyStrip (cleanNavLines content) ++ ['\n', '\n'] ++
      navLine prev next ++ ['\n', '\n']

/-- After `"docs/"`: non-greedy `.*?\.md\)` — consume the least run of
non-newline characters followed by the literal `".md)"`.  Returns the consumed
middle and the rest after the closing parenthesis. -/
def scanMid : List Char → Option (List Char × List Char)
  | [] => none
  | c :: rest =>
    if (chars ".md)").isPrefixOf (c :: rest) then some ([], (c :: rest).drop 4)
    else if c = '\n' then none
    else
      match scanMid rest with
      | none => none
      | some (m, r) => some (c :: m, r)

/-- Attempt to match `\]\((docs/.*?\.md)\)` at the current position; on success
returns the captured group and the rest after the match. -/
def tryClose (l : List Char) : Option (List Char × List Char) :=
  if (chars "](docs/").isPrefixOf l then
    match scanMid (l.drop 7) with
    | none => none
    | some (m, r) => some (chars "docs/" ++ m ++ chars ".md", r)
  else none

/-- After `"["`: non-greedy `.*?` for the label — at each position first try to
close the link, then extend the label by one non-newline character.  Returns
the label, the captured path and the rest after the match. -/
def scanLabel : List Char → Option (List Char × List Char × List Char)
  | [] => none
  | c :: rest =>
    match tryClose (c :: rest) with
    | some (p, r) => some ([], p, r)
    | none =>
      if c = '\n' then none
      else
        match scanLabel rest with
        | none => none
        | some (lbl, p, r) => some (c :: lbl, p, r)

/-- Attempt to match `\[.*?\]\((docs/.*?\.md)\)` at the current position. -/
def tryMatch : List Char → Option (List Char × List Char)
  | [] => none
  | c :: rest =>
    if c = '[' then
      match scanLabel rest with
      | none => none
      | some (_, p, r) => some (p, r)
    else none

/-- `re.findall(r"\[.*?\]\((docs/.*?\.md)\)", l)`: leftmost matches, scanning
resumes after each match.  Fuel-indexed; `findallDocLinks` supplies the fuel. -/
def findallAux : Nat → List Char → List (List Char)
  | 0, _ => []
  | _ + 1, [] => []
  | fuel + 1, c :: rest =>
    match tryMatch (c :: rest) with
    | some (p, r) => p :: findallAux fuel r
    | none => findallAux fuel rest

/-- All captured `docs/*.md` link targets, in order of appearance. -/
def findallDocLinks (l : List Char) : List (List Char) := findallAux l.length l

/-- `list(dict.fromkeys(l))`: remove duplicates keeping the first occurrence of
each element.  Fuel-indexed; `dedupFirst` supplies the fuel. -/
def dedupFirstAux : Nat → List (List Char) → List (List Char)
  | 0, _ => []
  | _ + 1, [] => []
  | fuel + 1, x :: xs => x :: dedupFirstAux fuel (xs.filter (fun y => y != x))

/-- `list(dict.fromkeys(l))`. -/
def dedupFirst (l : List (List Char)) : List (List Char) := dedupFirstAux l.length l

/-- `extract_doc_links_from_readme(readme_content)`. -/
def extract_doc_links_from_readme (readme : List Char) : List (List Char) :=
  dedupFirst (findallDocLinks readme)

/-- The file system seen by the orchestrator: an association list from path to
content (first binding wins). -/
abbrev FS := List (List Char × List Char)

/-- Existence test plus `read_text`. -/
def fsRead (fs : FS) (p : List Char) : Option (List Char) :=
  match fs with
  | [] => none
  | e :: rest => if e.1 = p then some e.2 else fsRead rest p

/-- `write_text`: overwrite an existing file, create a missing one. -/
def fsWrite (fs : FS) (p c : List Char) : FS :=
  if (fsRead fs p).isSome then
    fs.map (fun e => if e.1 = p then (e.1, c) else e)
  else fs ++ [(p, c)]

/-- The loop of `process_documentation_files`: for each file, warn and skip it
when missing, otherwise rewrite it with its neighbours' navigation links.
`prevF` is the previous entry of the ordered list (`doc_files[i-1]`), the next
one is the head of the remaining list.  Returns the final file system and the
printed lines in order. -/
def processGo : FS → Option (List Char) → List (List Char) → FS × List (List Char)
  | fs, _, [] => (fs, [])
  | fs, prevF, f :: rest =>
    match fsRead fs f with
    | none =>
      let r := processGo fs (some f) rest
      (r.1, (chars "Warning: " ++ f ++ chars " not found") :: r.2)
    | some content =>
      let updated := add_navigation_links content prevF rest.head?
      let r := processGo (fsWrite fs f updated) (some f) rest
      (r.1, (chars "Updated " ++ f) :: r.2)

/-- `process_documentation_files(readme_path)`, given the readme's content and
the file system holding the documentation files (paths are taken relative to
the readme's directory, as `readme_path.parent / current_file` does). -/
def process_documentation_files (readme : List Char) (fs : FS) :
    FS × List (List Char) :=
  processGo fs none (extract_doc_links_from_readme readme)

/-- Characters allowed in the base name of a well-formed documentation
path. -/
def niceChars : List Char :=
  chars "abcdefghijklmnopqrstuvwxyzABCDEFGHIJKLMNOPQRSTUVWXYZ0123456789_"

/-- A well-formed documentation path `docs/<base>.md` with `<base>` a nonempty
word over letters, digits and underscores. -/
def NiceDocPath (p : List Char) : Prop :=
  ∃ base, p = chars "docs/" ++ base ++ chars ".md" ∧ base ≠ [] ∧
    ∀ c ∈ base, c ∈ niceChars

/-- A neighbour argument of the injector: absent, or a well-formed
documentation path. -/
def OkNeighbor : Option (List Char) → Prop
  | none => True
  | some p => NiceDocPath p

/-- The index of the first occurrence of `a` (the length of the list when `a`
is absent). -/
def firstIdx (a : List Char) : List (List Char) → Nat
  | [] => 0
  | x :: xs => if x = a then 0 else firstIdx a xs + 1

/-- A marker occurrence with a later newline, stated declaratively: `l` can be
split as `pre ++ m ++ mid ++ "\n" ++ post`. -/
def NoMarkerSegment (m l : List Char) : Prop :=
  ∀ pre mid post, l ≠ pre ++ m ++ mid ++ '\n' :: post

/-- The text contains a markdown link `[label](docs/….md)` in the sense of the
extraction pattern: label and path middle are newline-free. -/
def ContainsDocLink (text : List Char) : Prop :=
  ∃ pre lbl mid post,
    text = pre ++ '[' :: (lbl ++ chars "](docs/" ++ mid ++ chars ".md)" ++ post) ∧
    '\n' ∉ lbl ∧ '\n' ∉ mid

/-! ### Generic facts about the fuelled definitions -/

theorem dropWhile_length_le (p : Char → Bool) (l : List Char) :
    (l.dropWhile p).length ≤ l.length :=
  (List.dropWhile_suffix p).length_le

theorem reSubAux_nil (m : List Char) : ∀ f, reSubAux m f [] = []
  | 0 => rfl
  | _ + 1 => rfl

/-- The list passed to the recursive call after a removal step is no longer
than the tail of the scanned list. -/
theorem reSubStep_length (m : List Char) (c : Char) (rest : List Char) :
    ((((c :: rest).drop m.length).dropWhile (fun x => x != '\n')).drop 1).length ≤
      rest.length := by
  have h1 := dropWhile_length_le (fun x => x != '\n') ((c :: rest).drop m.length)
  have h2 : ((c :: rest).drop m.length).length ≤ rest.length + 1 := by
    simp [List.length_drop]
  simp only [List.length_drop] at *
  omega

/-- Any amount of fuel at least the length of the list gives the same
result. -/
theorem reSubAux_fuel (m : List Char) :
    ∀ (f g : Nat) (l : List Char), l.length ≤ f → l.length ≤ g →
      reSubAux m f l = reSubAux m g l := by
  intro f
  induction f with
  | zero =>
    intro g l hf _
    have : l = [] := List.eq_nil_of_length_eq_zero (Nat.le_zero.mp hf)
    subst this
    rw [reSubAux_nil, reSubAux_nil]
  | succ f ih =>
    intro g l hf hg
    match l with
    | [] => rw [reSubAux_nil, reSubAux_nil]
    | c :: rest =>
      cases g with
      | zero => simp at hg
      | succ g =>
        simp only [reSubAux]
        by_cases hp : m.isPrefixOf (c :: rest)
        · simp only [hp, if_true]
          by_cases hn : '\n' ∈ (c :: rest).drop m.length
          · simp only [hn, if_true]
            exact ih g _
              (le_trans (reSubStep_length m c rest) (Nat.le_of_succ_le_succ hf))
              (le_trans (reSubStep_length m c rest) (Nat.le_of_succ_le_succ hg))
          · simp only [hn, if_false]
        · simp only [hp, Bool.false_eq_true, if_false, List.cons.injEq, true_and]
          exact ih g rest (Nat.le_of_succ_le_succ hf) (Nat.le_of_succ_le_succ hg)

theorem reSubLine_nil (m : List Char) : reSubLine m [] = [] := rfl

/-- If the marker is nowhere a prefix of a suffix of `l`, the substitution
does nothing. -/
theorem reSubAux_noMatch (m : List Char) :
    ∀ (f : Nat) (l : List Char), (∀ s, s <:+ l → ¬ m <+: s) →
      reSubAux m f l = l := by
  intro f
  induction f with
  | zero => intro l _; rfl
  | succ f ih =>
    intro l h
    match l with
    | [] => rfl
    | c :: rest =>
      have hp : ¬ m.isPrefixOf (c :: rest) := by
        rw [List.isPrefixOf_iff_prefix]
        exact h (c :: rest) List.suffix_rfl
      simp only [reSubAux, hp, Bool.false_eq_true, if_false, List.cons.injEq, true_and]
      exact ih rest (fun s hs => h s (hs.trans (List.suffix_cons c rest)))

theorem reSubLine_noMatch (m l : List Char) (h : ¬ m <:+: l) :
    reSubLine m l = l := by
  refine reSubAux_noMatch m l.length l (fun s hs hp => h ?_)
  exact hp.isInfix.trans hs.isInfix

/-- Without any marker-to-newline segment, the substitution does nothing. -/
theorem reSubAux_noSeg (m : List Char) :
    ∀ (f : Nat) (l : List Char), NoMarkerSegment m l → reSubAux m f l = l := by
  intro f
  induction f with
  | zero => intro l _; rfl
  | succ f ih =>
    intro l h
    match l with
    | [] => rfl
    | c :: rest =>
      by_cases hp : m.isPrefixOf (c :: rest)
      · have hpre : m <+: c :: rest := List.isPrefixOf_iff_prefix.mp hp
        obtain ⟨t, ht⟩ := hpre
        have hafter : (c :: rest).drop m.length = t := by
          rw [← ht, List.drop_left]
        by_cases hn : '\n' ∈ (c :: rest).drop m.length
        · exfalso
          rw [hafter] at hn
          obtain ⟨mid, post, hmp⟩ := List.append_of_mem hn
          exact h [] mid post (by rw [← ht, hmp]; simp)
        · simp only [reSubAux, hp, if_true, hn, if_false]
      · simp only [reSubAux, hp, Bool.false_eq_true, if_false, List.cons.injEq, true_and]
        refine ih rest (fun pre mid post hc => ?_)
        exact h (c :: pre) mid post (by rw [hc]; simp)

theorem reSubLine_noSeg (m l : List Char) (h : NoMarkerSegment m l) :
    reSubLine m l = l :=
  reSubAux_noSeg m l.length l h

/-- Scanning past a block that can start no match. -/
theorem reSubLine_append (m l1 l2 : List Char)
    (h : ∀ s, s <:+ l1 → s ≠ [] → ¬ m <+: (s ++ l2)) :
    reSubLine m (l1 ++ l2) = l1 ++ reSubLine m l2 := by
  suffices H : ∀ (l1 : List Char) (f : Nat), (l1 ++ l2).length ≤ f →
      (∀ s, s <:+ l1 → s ≠ [] → ¬ m <+: (s ++ l2)) →
      reSubAux m f (l1 ++ l2) = l1 ++ reSubLine m l2 by
    exact H l1 (l1 ++ l2).length le_rfl h
  intro l1
  induction l1 with
  | nil =>
    intro f hf _
    simp only [List.nil_append] at *
    exact reSubAux_fuel m f l2.length l2 hf le_rfl
  | cons c l1 ih =>
    intro f hf hs
    cases f with
    | zero => simp at hf
    | succ f =>
      have hp : ¬ m.isPrefixOf ((c :: l1) ++ l2) := by
        rw [List.isPrefixOf_iff_prefix]
        exact hs (c :: l1) List.suffix_rfl (by simp)
      show reSubAux m (f + 1) (c :: (l1 ++ l2)) = (c :: l1) ++ reSubLine m l2
      have hp' : ¬ m.isPrefixOf (c :: (l1 ++ l2)) := hp
      simp only [reSubAux, hp', Bool.false_eq_true, if_false]
      have := ih f (by simp at hf ⊢; omega)
        (fun s hss hne => hs s (hss.trans (List.suffix_cons c l1)) hne)
      rw [this]
      rfl

/-- Removing one matched navigation line: the marker matches at the start of a
newline-free block, so everything up to and including the newline after the
block is removed and scanning resumes after it. -/
theorem reSubLine_matchStep (m nav rest : List Char) (hm : m ≠ [])
    (hpre : m <+: nav) (hNL : '\n' ∉ nav) :
    reSubLine m (nav ++ '\n' :: rest) = reSubLine m rest := by
  suffices H : ∀ f, (nav ++ '\n' :: rest).length ≤ f →
      reSubAux m f (nav ++ '\n' :: rest) = reSubLine m rest by
    exact H _ le_rfl
  intro f hf
  match nav, hpre with
  | [], hpre => exact absurd (List.prefix_nil.mp hpre) hm
  | n0 :: nav, hpre =>
    cases f with
    | zero => simp at hf
    | succ f =>
      have hp : m.isPrefixOf ((n0 :: nav) ++ '\n' :: rest) := by
        rw [List.isPrefixOf_iff_prefix]
        exact hpre.trans (List.prefix_append _ _)
      show reSubAux m (f + 1) (n0 :: (nav ++ '\n' :: rest)) = reSubLine m rest
      have hp' : m.isPrefixOf (n0 :: (nav ++ '\n' :: rest)) := hp
      simp only [reSubAux, hp', if_true]
      have hlen : m.length ≤ (n0 :: nav).length := hpre.length_le
      have hafter : (n0 :: (nav ++ '\n' :: rest)).drop m.length =
          ((n0 :: nav).drop m.length) ++ '\n' :: rest := by
        rw [show (n0 :: (nav ++ '\n' :: rest)) = (n0 :: nav) ++ '\n' :: rest from rfl,
          List.drop_append_of_le_length hlen]
      have hn : '\n' ∈ (n0 :: (nav ++ '\n' :: rest)).drop m.length := by
        rw [hafter]
        exact List.mem_append_right _ (List.mem_cons_self _ _)
      simp only [hn, if_true]
      have hdw : (((n0 :: (nav ++ '\n' :: rest)).drop m.length).dropWhile
          (fun x => x != '\n')).drop 1 = rest := by
        rw [hafter, List.dropWhile_append_of_pos, List.dropWhile_cons_of_neg]
        · rfl
        · simp
        · intro a ha
          have : a ∈ n0 :: nav := List.mem_of_mem_drop ha
          simp only [bne_iff_ne, ne_eq]
          exact fun hc => hNL (hc ▸ this)
      rw [hdw]
      refine reSubAux_fuel m f rest.length rest ?_ le_rfl
      simp at hf
      omega

/-- `containsSub` decides the substring relation. -/
theorem containsSub_iff (m l : List Char) : containsSub m l = true ↔ m <:+: l := by
  induction l with
  | nil =>
    simp only [containsSub, List.isEmpty_iff, List.infix_nil]
  | cons c rest ih =>
    simp only [containsSub, Bool.or_eq_true, List.isPrefixOf_iff_prefix, ih,
      List.infix_cons_iff]

/-- A prefix of `l1 ++ '\n' :: l2` containing no newline is a prefix of
`l1`. -/
theorem prefix_split_nl {m l2 : List Char} (hNL : '\n' ∉ m) :
    ∀ l1, m <+: (l1 ++ '\n' :: l2) → m <+: l1 := by
  induction m with
  | nil => intro l1 _; exact List.nil_prefix
  | cons a m ih =>
    intro l1 hp
    cases l1 with
    | nil =>
      rw [List.nil_append, List.cons_prefix_cons] at hp
      exact absurd (hp.1 ▸ List.mem_cons_self a m) hNL
    | cons b l1 =>
      rw [List.cons_append, List.cons_prefix_cons] at hp
      rw [List.cons_prefix_cons]
      exact ⟨hp.1, ih (fun hc => hNL (List.mem_cons_of_mem a hc)) l1 hp.2⟩

/-- A newline-free, nonempty infix of `l1 ++ '\n' :: l2` lies within `l1` or
within `l2`. -/
theorem infix_split_nl {m : List Char} (hm : m ≠ []) (hNL : '\n' ∉ m) :
    ∀ l1 l2, m <:+: (l1 ++ '\n' :: l2) → m <:+: l1 ∨ m <:+: l2 := by
  intro l1
  induction l1 with
  | nil =>
    intro l2 h
    rw [List.nil_append, List.infix_cons_iff] at h
    rcases h with h | h
    · match m, hm with
      | a :: m, _ =>
        rw [List.cons_prefix_cons] at h
        exact absurd (h.1 ▸ List.mem_cons_self a m) hNL
    · exact Or.inr h
  | cons c l1 ih =>
    intro l2 h
    rw [List.cons_append, List.infix_cons_iff] at h
    rcases h with h | h
    · exact Or.inl ((prefix_split_nl hNL (c :: l1) (by rwa [List.cons_append])).isInfix)
    · rcases ih l2 h with h | h
      · exact Or.inl (List.infix_cons h)
      · exact Or.inr h

/-! ### The navigation list and the shape of the injector's output -/

theorem navEntries_none_none : navEntries none none = [] := rfl

theorem navEntries_some_none (p : List Char) (hp : p ≠ []) :
    navEntries (some p) none = [prevEntry p] := by
  simp [navEntries, optEntry, hp]

theorem navEntries_none_some (n : List Char) (hn : n ≠ []) :
    navEntries none (some n) = [nextEntry n] := by
  simp [navEntries, optEntry, hn]

theorem navEntries_some_some (p n : List Char) (hp : p ≠ []) (hn : n ≠ []) :
    navEntries (some p) (some n) = [prevEntry p, nextEntry n] := by
  simp [navEntries, optEntry, hp, hn]

/-- "Present" in the Python sense: the argument is given and truthy. -/
theorem navEntries_ne_nil {prev next : Option (List Char)}
    (h : (∃ p, prev = some p ∧ p ≠ []) ∨ (∃ n, next = some n ∧ n ≠ [])) :
    navEntries prev next ≠ [] := by
  rcases h with ⟨p, hp, hpne⟩ | ⟨n, hn, hnne⟩
  · subst hp
    simp only [navEntries, optEntry, hpne, if_neg hpne]
    simp
  · subst hn
    simp only [navEntries, optEntry, hnne, if_neg hnne]
    simp

theorem add_navigation_links_pos (content : List Char)
    (prev next : Option (List Char)) (h : navEntries prev next ≠ []) :
    add_navigation_links content prev next =
      ['\n'] ++ navLine prev next ++ ['\n', '\n'] ++
        pyStrip (cleanNavLines content) ++ ['\n', '\n'] ++
        navLine prev next ++ ['\n', '\n'] := by
  simp [add_navigation_links, h]

/-- **C5**  When at least one neighbour is present, the output is one
navigation line before the whitespace-stripped body and one identical line
after it, each surrounded by blank-line separators; the navigation line joins
the present directional links with `" | "`. -/
theorem claim5_output_shape (content : List Char) (prev next : Option (List Char))
    (h : (∃ p, prev = some p ∧ p ≠ []) ∨ (∃ n, next = some n ∧ n ≠ [])) :
    add_navigation_links content prev next =
      ['\n'] ++ joinSep (chars " | ") (navEntries prev next) ++ ['\n', '\n'] ++
        pyStrip (cleanNavLines content) ++ ['\n', '\n'] ++
        joinSep (chars " | ") (navEntries prev next) ++ ['\n', '\n'] :=
  add_navigation_links_pos content prev next (navEntries_ne_nil h)

theorem claim5_output_shape_witness :
    ((∃ p, some (chars "docs/a.md") = some p ∧ p ≠ []) ∨
      (∃ n, (none : Option (List Char)) = some n ∧ n ≠ [])) ∧
    add_navigation_links (chars "hello") (some (chars "docs/a.md")) none =
      ['\n'] ++ joinSep (chars " | ") (navEntries (some (chars "docs/a.md")) none) ++
        ['\n', '\n'] ++ pyStrip (cleanNavLines (chars "hello")) ++ ['\n', '\n'] ++
        joinSep (chars " | ") (navEntries (some (chars "docs/a.md")) none) ++
        ['\n', '\n'] :=
  ⟨Or.inl ⟨chars "docs/a.md", rfl, by decide⟩,
    claim5_output_shape (chars "hello") (some (chars "docs/a.md")) none
      (Or.inl ⟨chars "docs/a.md", rfl, by decide⟩)⟩

/-- **C3**  If both neighbour arguments are absent, the content is returned
unchanged (hence a single-file list leaves its file's content unchanged); with
only a previous neighbour the produced navigation line is exactly the single
"Previous" link, and with only a next neighbour it is exactly the single
"Next" link. -/
theorem claim3_boundary_behavior :
    (∀ content, add_navigation_links content none none = content) ∧
    (∀ p, p ≠ [] →
      joinSep (chars " | ") (navEntries (some p) none) = prevEntry p) ∧
    (∀ n, n ≠ [] →
      joinSep (chars " | ") (navEntries none (some n)) = nextEntry n) := by
  refine ⟨fun content => rfl, fun p hp => ?_, fun n hn => ?_⟩
  · rw [navEntries_some_none p hp]; rfl
  · rw [navEntries_none_some n hn]; rfl

theorem claim3_boundary_behavior_witness :
    add_navigation_links (chars "alone") none none = chars "alone" ∧
    chars "docs/b.md" ≠ [] ∧
    joinSep (chars " | ") (navEntries (some (chars "docs/b.md")) none) =
      prevEntry (chars "docs/b.md") :=
  ⟨claim3_boundary_behavior.1 (chars "alone"), by decide,
    claim3_boundary_behavior.2.1 (chars "docs/b.md") (by decide)⟩

/-- **C6**  The title of a navigation label is the file's base name without
extension, underscores replaced by spaces, then title-cased; in particular
`"my_file.md"` gives `"My File"` and `"a_b_c.md"` gives `"A B C"`, and both
directional links are labelled with exactly this title. -/
theorem claim6_title_derivation :
    deriveTitle (chars "my_file.md") = chars "My File" ∧
    deriveTitle (chars "a_b_c.md") = chars "A B C" ∧
    (∀ p, deriveTitle p =
      pyTitle ((pathStem p).map (fun c => if c == '_' then ' ' else c))) ∧
    (∀ p, optEntry prevEntry (some p) =
      if p = [] then []
      else [chars "[← Previous: " ++ deriveTitle p ++ chars "](" ++
        get_relative_link p ++ chars ")"]) ∧
    (∀ p, optEntry nextEntry (some p) =
      if p = [] then []
      else [chars "[Next: " ++ deriveTitle p ++ chars " →](" ++
        get_relative_link p ++ chars ")"]) :=
  ⟨by decide, by decide, fun p => rfl, fun p => rfl, fun p => rfl⟩

/-- **C9**  The link target of every generated directional link is
`get_relative_link` of the neighbour path, which drops the directory prefix:
for a path `d ++ "/" ++ s` whose final component `s` is nonempty and contains
no slash it returns `s` (the final component `"."` is excluded because
`pathlib` collapses it, which the model does not track); in particular
`"docs/a.md"` is mapped to `"a.md"`. -/
theorem claim9_relative_link :
    (∀ d s, '/' ∉ s → s ≠ [] → s ≠ chars "." →
      get_relative_link (d ++ '/' :: s) = s) ∧
    get_relative_link (chars "docs/a.md") = chars "a.md" ∧
    (∀ p, p ≠ [] → navEntries (some p) none =
      [chars "[← Previous: " ++ deriveTitle p ++ chars "](" ++
        get_relative_link p ++ chars ")"]) ∧
    (∀ n, n ≠ [] → navEntries none (some n) =
      [chars "[Next: " ++ deriveTitle n ++ chars " →](" ++
        get_relative_link n ++ chars ")"]) := by
  refine ⟨fun d s hs hne _ => ?_, by decide,
    fun p hp => navEntries_some_none p hp, fun n hn => navEntries_none_some n hn⟩
  obtain ⟨c, t, hct⟩ := List.exists_cons_of_ne_nil
    (fun hrev => hne (by simpa using congrArg List.reverse hrev) :
      s.reverse ≠ [])
  have hc : c ∈ s := by
    rw [← List.mem_reverse, hct]
    exact List.mem_cons_self c t
  have hcs : c ≠ '/' := fun hceq => hs (hceq ▸ hc)
  have hmem : ∀ a ∈ s.reverse, (a != '/') = true := by
    intro a ha
    rw [List.mem_reverse] at ha
    simp only [bne_iff_ne, ne_eq]
    exact fun hae => hs (hae ▸ ha)
  show ((((d ++ '/' :: s).reverse.dropWhile (fun c => c == '/')).takeWhile
      (fun c => c != '/')).reverse) = s
  rw [List.reverse_append, List.reverse_cons, List.append_assoc]
  rw [hct, List.cons_append, List.dropWhile_cons_of_neg (by simp [hcs]),
    ← List.cons_append, ← hct, List.takeWhile_append_of_pos hmem,
    List.singleton_append, List.takeWhile_cons_of_neg (by simp)]
  simp

theorem claim9_relative_link_witness :
    '/' ∉ chars "a.md" ∧ chars "a.md" ≠ [] ∧ chars "a.md" ≠ chars "." ∧
    get_relative_link (chars "docs" ++ '/' :: chars "a.md") = chars "a.md" :=
  ⟨by decide, by decide, by decide,
    claim9_relative_link.1 (chars "docs") (chars "a.md")
      (by decide) (by decide) (by decide)⟩

/-- **C10**  (Stated for a run that inserts navigation, i.e. at least one
neighbour present, which is when the stripping code executes.)  If the content
contains `"← Previous:"` or `"Next:"` anywhere, the body placed between the
navigation lines is the content with every segment from `"[← Previous:"` or
`"[Next:"` through the following newline removed — also when that text was
authored by the user, as the closed equation on the hand-written line shows;
if the content contains no such marker-to-newline segment, the
whitespace-trimmed body appears verbatim. -/
theorem claim10_body_frame (content : List Char) (prev next : Option (List Char))
    (h : navEntries prev next ≠ []) :
    ((containsSub checkPrevS content || containsSub checkNextS content) = true →
      add_navigation_links content prev next =
        ['\n'] ++ navLine prev next ++ ['\n', '\n'] ++
          pyStrip (reSubLine nmark (reSubLine pmark content)) ++ ['\n', '\n'] ++
          navLine prev next ++ ['\n', '\n']) ∧
    (NoMarkerSegment pmark content → NoMarkerSegment nmark content →
      add_navigation_links content prev next =
        ['\n'] ++ navLine prev next ++ ['\n', '\n'] ++
          pyStrip content ++ ['\n', '\n'] ++
          navLine prev next ++ ['\n', '\n']) ∧
    reSubLine pmark (chars "Intro\n[← Previous: handwritten](x.md)\nOutro") =
      chars "Intro\nOutro" := by
  refine ⟨fun hc => ?_, fun hp hn => ?_, by decide⟩
  · rw [add_navigation_links_pos content prev next h]
    rw [show cleanNavLines content =
      reSubLine nmark (reSubLine pmark content) by simp [cleanNavLines, hc]]
  · rw [add_navigation_links_pos content prev next h]
    by_cases hc : (containsSub checkPrevS content ||
        containsSub checkNextS content) = true
    · rw [show cleanNavLines content =
        reSubLine nmark (reSubLine pmark content) by simp [cleanNavLines, hc]]
      rw [reSubLine_noSeg pmark content hp, reSubLine_noSeg nmark content hn]
    · rw [show cleanNavLines content = content by simp [cleanNavLines, hc]]

theorem claim10_body_frame_witness :
    navEntries (some (chars "docs/a.md")) none ≠ [] ∧
    (containsSub checkPrevS (chars "see\n[Next: old](o.md)\nend") ||
      containsSub checkNextS (chars "see\n[Next: old](o.md)\nend")) = true ∧
    add_navigation_links (chars "see\n[Next: old](o.md)\nend")
        (some (chars "docs/a.md")) none =
      ['\n'] ++ navLine (some (chars "docs/a.md")) none ++ ['\n', '\n'] ++
        pyStrip (reSubLine nmark (reSubLine pmark
          (chars "see\n[Next: old](o.md)\nend"))) ++ ['\n', '\n'] ++
        navLine (some (chars "docs/a.md")) none ++ ['\n', '\n'] :=
  ⟨by decide, by decide,
    (claim10_body_frame (chars "see\n[Next: old](o.md)\nend")
      (some (chars "docs/a.md")) none (by decide)).1 (by decide)⟩

/-! ### Soundness of the link extractor -/

theorem chars_close_docs : chars "](docs/" = chars "](" ++ chars "docs/" := by decide

theorem chars_mdparen : chars ".md)" = chars ".md" ++ chars ")" := by decide

theorem scanMid_sound :
    ∀ (l m r : List Char), scanMid l = some (m, r) →
      l = m ++ chars ".md)" ++ r ∧ '\n' ∉ m := by
  intro l
  induction l with
  | nil => intro m r h; simp [scanMid] at h
  | cons c rest ih =>
    intro m r h
    simp only [scanMid] at h
    by_cases hp : (chars ".md)").isPrefixOf (c :: rest)
    · simp only [hp, if_true, Option.some.injEq, Prod.mk.injEq] at h
      obtain ⟨hm, hr⟩ := h
      subst hm; subst hr
      obtain ⟨t, ht⟩ := List.isPrefixOf_iff_prefix.mp hp
      have hdrop : (c :: rest).drop 4 = t := by
        rw [← ht]
        exact List.drop_left' (by decide)
      refine ⟨?_, by simp⟩
      rw [List.nil_append, hdrop, ← ht]
    · simp only [hp, Bool.false_eq_true, if_false] at h
      by_cases hc : c = '\n'
      · simp [hc] at h
      · simp only [hc, if_false] at h
        cases hscan : scanMid rest with
        | none => rw [hscan] at h; simp at h
        | some mr =>
          obtain ⟨m', r'⟩ := mr
          rw [hscan] at h
          simp only [Option.some.injEq, Prod.mk.injEq] at h
          obtain ⟨hm, hr⟩ := h
          subst hm; subst hr
          obtain ⟨hdec, hnl⟩ := ih m' r' hscan
          constructor
          · rw [List.cons_append, List.cons_append, ← hdec]
          · simp only [List.mem_cons, not_or]
            exact ⟨fun hcc => hc hcc.symm, hnl⟩

theorem tryClose_sound (l p r : List Char) (h : tryClose l = some (p, r)) :
    ∃ m, l = chars "](" ++ p ++ chars ")" ++ r ∧
      p = chars "docs/" ++ m ++ chars ".md" ∧ '\n' ∉ m := by
  unfold tryClose at h
  by_cases hp : (chars "](docs/").isPrefixOf l
  · simp only [hp, if_true] at h
    cases hscan : scanMid (l.drop 7) with
    | none => rw [hscan] at h; simp at h
    | some mr =>
      obtain ⟨m, r'⟩ := mr
      rw [hscan] at h
      simp only [Option.some.injEq, Prod.mk.injEq] at h
      obtain ⟨hpp, hrr⟩ := h
      subst hpp; subst hrr
      obtain ⟨hdec, hnl⟩ := scanMid_sound (l.drop 7) m r' hscan
      obtain ⟨t, ht⟩ := List.isPrefixOf_iff_prefix.mp hp
      have hdrop : l.drop 7 = t := by
        rw [← ht]
        exact List.drop_left' (by decide)
      refine ⟨m, ?_, rfl, hnl⟩
      have ht2 : t = m ++ chars ".md)" ++ r' := by rw [← hdrop, hdec]
      rw [← ht, ht2, chars_close_docs, chars_mdparen]
      simp [List.append_assoc]
  · simp [hp] at h

theorem scanLabel_sound :
    ∀ (l lbl p r : List Char), scanLabel l = some (lbl, p, r) →
      l = lbl ++ chars "](" ++ p ++ chars ")" ++ r ∧ '\n' ∉ lbl ∧
        ∃ m, p = chars "docs/" ++ m ++ chars ".md" ∧ '\n' ∉ m := by
  intro l
  induction l with
  | nil => intro lbl p r h; simp [scanLabel] at h
  | cons c rest ih =>
    intro lbl p r h
    simp only [scanLabel] at h
    cases htc : tryClose (c :: rest) with
    | some pr =>
      obtain ⟨p', r'⟩ := pr
      rw [htc] at h
      simp only [Option.some.injEq, Prod.mk.injEq] at h
      obtain ⟨hl, hp, hr⟩ := h
      subst hl; subst hp; subst hr
      obtain ⟨m, hdec, hpm, hnl⟩ := tryClose_sound (c :: rest) p' r' htc
      exact ⟨by simpa using hdec, by simp, m, hpm, hnl⟩
    | none =>
      rw [htc] at h
      by_cases hc : c = '\n'
      · simp [hc] at h
      · simp only [hc, if_false] at h
        cases hsl : scanLabel rest with
        | none => rw [hsl] at h; simp at h
        | some x =>
          obtain ⟨lbl', p', r'⟩ := x
          rw [hsl] at h
          simp only [Option.some.injEq, Prod.mk.injEq] at h
          obtain ⟨hl, hp, hr⟩ := h
          subst hl; subst hp; subst hr
          obtain ⟨hdec, hnl, m, hpm, hmn⟩ := ih lbl' p' r' hsl
          refine ⟨?_, ?_, m, hpm, hmn⟩
          · rw [hdec]
            simp [List.cons_append, List.append_assoc]
          · simp only [List.mem_cons, not_or]
            exact ⟨fun hcc => hc hcc.symm, hnl⟩

theorem tryMatch_sound (l p r : List Char) (h : tryMatch l = some (p, r)) :
    ∃ lbl, l = '[' :: (lbl ++ chars "](" ++ p ++ chars ")" ++ r) ∧ '\n' ∉ lbl ∧
      ∃ m, p = chars "docs/" ++ m ++ chars ".md" ∧ '\n' ∉ m := by
  match l with
  | [] => simp [tryMatch] at h
  | c :: rest =>
    simp only [tryMatch] at h
    by_cases hc : c = '['
    · simp only [hc, if_true] at h
      cases hsl : scanLabel rest with
      | none => rw [hsl] at h; simp at h
      | some x =>
        obtain ⟨lbl, p', r'⟩ := x
        rw [hsl] at h
        simp only [Option.some.injEq, Prod.mk.injEq] at h
        obtain ⟨hp2, hr2⟩ := h
        obtain ⟨hdec, hnl, m, hpm, hmn⟩ := scanLabel_sound rest lbl p' r' hsl
        refine ⟨lbl, ?_, hnl, m, by rw [← hp2, hpm], hmn⟩
        rw [hc, hdec, hp2, hr2]
    · simp [hc] at h

theorem tryMatch_length (l p r : List Char) (h : tryMatch l = some (p, r)) :
    r.length < l.length := by
  obtain ⟨lbl, hdec, -⟩ := tryMatch_sound l p r h
  rw [hdec]
  simp
  omega

/-- Every capture of the scan is the target of a markdown link present in the
text, preceded by a newline-free label and of the form `docs/….md`. -/
theorem findallAux_sound :
    ∀ (f : Nat) (l q : List Char), l.length ≤ f → q ∈ findallAux f l →
      ∃ pre lbl post,
        l = pre ++ '[' :: (lbl ++ chars "](" ++ q ++ chars ")" ++ post) ∧
        '\n' ∉ lbl ∧ ∃ m, q = chars "docs/" ++ m ++ chars ".md" ∧ '\n' ∉ m := by
  intro f
  induction f with
  | zero => intro l q _ hq; simp [findallAux] at hq
  | succ f ih =>
    intro l q hf hq
    match l with
    | [] => simp [findallAux] at hq
    | c :: rest =>
      simp only [findallAux] at hq
      cases htm : tryMatch (c :: rest) with
      | some pr =>
        obtain ⟨p, r⟩ := pr
        rw [htm] at hq
        obtain ⟨lbl, hdec, hnl, m, hpm, hmn⟩ := tryMatch_sound _ p r htm
        rcases List.mem_cons.mp hq with hq | hq
        · subst hq
          exact ⟨[], lbl, r, by simpa using hdec, hnl, m, hpm, hmn⟩
        · have hrlen : r.length ≤ f := by
            have := tryMatch_length (c :: rest) p r htm
            simp at this hf
            omega
          obtain ⟨pre, lbl', post, hr, hnl', m', hpm', hmn'⟩ := ih r q hrlen hq
          refine ⟨'[' :: (lbl ++ chars "](" ++ p ++ chars ")" ++ pre), lbl', post,
            ?_, hnl', m', hpm', hmn'⟩
          rw [hdec, hr]
          simp [List.append_assoc]
      | none =>
        rw [htm] at hq
        obtain ⟨pre, lbl', post, hr, hnl', m', hpm', hmn'⟩ :=
          ih rest q (by simp at hf; omega) hq
        exact ⟨c :: pre, lbl', post, by rw [List.cons_append, ← hr], hnl', m', hpm', hmn'⟩

theorem dedupFirstAux_mem :
    ∀ (f : Nat) (l : List (List Char)) (x : List Char), l.length ≤ f →
      (x ∈ dedupFirstAux f l ↔ x ∈ l) := by
  intro f
  induction f with
  | zero =>
    intro l x hf
    have : l = [] := List.eq_nil_of_length_eq_zero (Nat.le_zero.mp hf)
    subst this
    simp [dedupFirstAux]
  | succ f ih =>
    intro l x hf
    match l with
    | [] => simp [dedupFirstAux]
    | y :: ys =>
      simp only [dedupFirstAux, List.mem_cons]
      have hlen : (ys.filter (fun z => z != y)).length ≤ f := by
        have := List.length_filter_le (fun z => z != y) ys
        simp at hf
        omega
      rw [ih _ x hlen]
      simp only [List.mem_filter, bne_iff_ne]
      constructor
      · rintro (rfl | ⟨hx, _⟩)
        · exact Or.inl rfl
        · exact Or.inr hx
      · rintro (rfl | hx)
        · exact Or.inl rfl
        · by_cases hxy : x = y
          · exact Or.inl hxy
          · exact Or.inr ⟨hx, hxy⟩

theorem mem_extract_iff (text q : List Char) :
    q ∈ extract_doc_links_from_readme text ↔ q ∈ findallDocLinks text :=
  dedupFirstAux_mem _ _ q le_rfl

/-- Shared soundness fact for the extractor. -/
theorem extract_sound (text q : List Char)
    (h : q ∈ extract_doc_links_from_readme text) :
    ∃ pre lbl post,
      text = pre ++ '[' :: (lbl ++ chars "](" ++ q ++ chars ")" ++ post) ∧
      '\n' ∉ lbl ∧ ∃ m, q = chars "docs/" ++ m ++ chars ".md" ∧ '\n' ∉ m :=
  findallAux_sound _ _ q le_rfl ((mem_extract_iff text q).mp h)

/-! ### Order and duplicate structure of the extracted list -/

theorem firstIdx_cons_self (a : List Char) (l : List (List Char)) :
    firstIdx a (a :: l) = 0 := by
  simp [firstIdx]

theorem firstIdx_cons_ne {x a : List Char} (h : x ≠ a) (l : List (List Char)) :
    firstIdx a (x :: l) = firstIdx a l + 1 := by
  simp [firstIdx, h]

/-- Filtering preserves the relative order of first occurrences. -/
theorem firstIdx_filter_lt (p : List Char → Bool) :
    ∀ (l : List (List Char)) (a b : List Char),
      a ∈ l.filter p → b ∈ l.filter p →
      firstIdx a (l.filter p) < firstIdx b (l.filter p) →
      firstIdx a l < firstIdx b l := by
  intro l
  induction l with
  | nil => intro a b ha _ _; simp at ha
  | cons c l ih =>
    intro a b ha hb hlt
    by_cases hpc : p c
    · rw [List.filter_cons_of_pos hpc] at ha hb hlt
      by_cases hac : a = c
      · subst hac
        rw [firstIdx_cons_self] at hlt
        have hba : b ≠ a := by
          intro hba
          subst hba
          simp [firstIdx_cons_self] at hlt
        rw [firstIdx_cons_self, firstIdx_cons_ne (Ne.symm hba) _]
        exact Nat.succ_pos _
      · by_cases hbc : b = c
        · subst hbc
          rw [firstIdx_cons_self] at hlt
          exact absurd hlt (Nat.not_lt_zero _)
        · rw [firstIdx_cons_ne (fun h => hac h.symm) _,
            firstIdx_cons_ne (fun h => hbc h.symm) _] at hlt
          have ha' : a ∈ l.filter p := by
            rcases List.mem_cons.mp ha with h | h
            · exact absurd h hac
            · exact h
          have hb' : b ∈ l.filter p := by
            rcases List.mem_cons.mp hb with h | h
            · exact absurd h hbc
            · exact h
          rw [firstIdx_cons_ne (fun h => hac h.symm) _,
            firstIdx_cons_ne (fun h => hbc h.symm) _]
          exact Nat.succ_lt_succ (ih a b ha' hb' (Nat.lt_of_succ_lt_succ hlt))
    · rw [List.filter_cons_of_neg hpc] at ha hb hlt
      have hac : a ≠ c := by
        intro h
        subst h
        exact hpc ((List.mem_filter.mp ha).2)
      have hbc : b ≠ c := by
        intro h
        subst h
        exact hpc ((List.mem_filter.mp hb).2)
      rw [firstIdx_cons_ne (fun h => hac h.symm) _,
        firstIdx_cons_ne (fun h => hbc h.symm) _]
      exact Nat.succ_lt_succ (ih a b ha hb hlt)

/-- The deduplicated list is ordered by position of first occurrence. -/
theorem dedupFirstAux_pairwise :
    ∀ (f : Nat) (l : List (List Char)), l.length ≤ f →
      (dedupFirstAux f l).Pairwise (fun a b => firstIdx a l < firstIdx b l) := by
  intro f
  induction f with
  | zero =>
    intro l hf
    have : l = [] := List.eq_nil_of_length_eq_zero (Nat.le_zero.mp hf)
    subst this
    simp [dedupFirstAux]
  | succ f ih =>
    intro l hf
    match l with
    | [] => simp [dedupFirstAux]
    | y :: ys =>
      simp only [dedupFirstAux]
      rw [List.pairwise_cons]
      have hlen : (ys.filter (fun z => z != y)).length ≤ f := by
        have := List.length_filter_le (fun z => z != y) ys
        simp at hf
        omega
      constructor
      · intro b hb
        have hbf : b ∈ ys.filter (fun z => z != y) :=
          (dedupFirstAux_mem f _ b hlen).mp hb
        have hbne : b ≠ y := by simpa using (List.mem_filter.mp hbf).2
        rw [firstIdx_cons_self, firstIdx_cons_ne (Ne.symm hbne) _]
        exact Nat.succ_pos _
      · refine List.Pairwise.imp_of_mem ?_ (ih (ys.filter (fun z => z != y)) hlen)
        intro a b ha hb hab
        have haf : a ∈ ys.filter (fun z => z != y) :=
          (dedupFirstAux_mem f _ a hlen).mp ha
        have hbf : b ∈ ys.filter (fun z => z != y) :=
          (dedupFirstAux_mem f _ b hlen).mp hb
        have hane : a ≠ y := by simpa using (List.mem_filter.mp haf).2
        have hbne : b ≠ y := by simpa using (List.mem_filter.mp hbf).2
        rw [firstIdx_cons_ne (Ne.symm hane) _,
          firstIdx_cons_ne (Ne.symm hbne) _]
        exact Nat.succ_lt_succ (firstIdx_filter_lt _ ys a b haf hbf hab)

/-- **C2**  The extractor's output has no duplicates, is ordered by the
position of each path's first occurrence in the match sequence, and contains
exactly the matched paths. -/
theorem claim2_nodup_first_seen_order (text : List Char) :
    (extract_doc_links_from_readme text).Nodup ∧
    (extract_doc_links_from_readme text).Pairwise
      (fun a b =>
        firstIdx a (findallDocLinks text) < firstIdx b (findallDocLinks text)) ∧
    ∀ q, q ∈ extract_doc_links_from_readme text ↔ q ∈ findallDocLinks text := by
  have hpw := dedupFirstAux_pairwise (findallDocLinks text).length
    (findallDocLinks text) le_rfl
  have hnd : (extract_doc_links_from_readme text).Nodup := by
    refine List.Pairwise.imp ?_ hpw
    intro a b hlt heq
    rw [heq] at hlt
    exact Nat.lt_irrefl _ hlt
  exact ⟨hnd, hpw, fun q => mem_extract_iff text q⟩

/-- **C8**  Every extracted path is the target of a markdown link
`[label](path)` occurring in the input, whose target starts with `"docs/"` and
ends with `".md"`. -/
theorem claim8_output_paths_are_doc_links (text q : List Char)
    (h : q ∈ extract_doc_links_from_readme text) :
    (∃ pre lbl post,
      text = pre ++ '[' :: (lbl ++ chars "](" ++ q ++ chars ")" ++ post) ∧
      '\n' ∉ lbl) ∧
    chars "docs/" <+: q ∧ chars ".md" <:+ q := by
  obtain ⟨pre, lbl, post, hdec, hnl, m, hpm, -⟩ := extract_sound text q h
  refine ⟨⟨pre, lbl, post, hdec, hnl⟩, ?_, ?_⟩
  · rw [hpm, List.append_assoc]
    exact List.prefix_append _ _
  · rw [hpm]
    exact List.suffix_append _ _

theorem claim8_output_paths_are_doc_links_witness :
    chars "docs/intro.md" ∈
      extract_doc_links_from_readme (chars "See [Intro](docs/intro.md) first.") ∧
    ((∃ pre lbl post,
      chars "See [Intro](docs/intro.md) first." =
        pre ++ '[' :: (lbl ++ chars "](" ++ chars "docs/intro.md" ++ chars ")" ++ post) ∧
      '\n' ∉ lbl) ∧
    chars "docs/" <+: chars "docs/intro.md" ∧
    chars ".md" <:+ chars "docs/intro.md") :=
  ⟨by decide,
    claim8_output_paths_are_doc_links (chars "See [Intro](docs/intro.md) first.")
      (chars "docs/intro.md") (by decide)⟩

theorem ContainsDocLink.bracket {text : List Char} (h : ContainsDocLink text) :
    '[' ∈ text := by
  obtain ⟨pre, lbl, mid, post, hdec, -, -⟩ := h
  rw [hdec]
  exact List.mem_append_right _ (List.mem_cons_self _ _)

/-- **C7**  On text containing no link matching the documentation pattern the
extractor returns the empty sequence (and, being a total function, signals no
error on any input). -/
theorem claim7_no_match_empty (text : List Char) (h : ¬ ContainsDocLink text) :
    extract_doc_links_from_readme text = [] := by
  by_contra hne
  obtain ⟨q, hq⟩ := List.exists_mem_of_ne_nil _ hne
  obtain ⟨pre, lbl, post, hdec, hnl, m, hpm, hmn⟩ := extract_sound text q hq
  refine h ⟨pre, lbl, m, post, ?_, hnl, hmn⟩
  rw [hdec, hpm, chars_close_docs, chars_mdparen]
  simp [List.append_assoc]

theorem claim7_no_match_empty_witness :
    (¬ ContainsDocLink (chars "plain text, zero links")) ∧
    extract_doc_links_from_readme (chars "plain text, zero links") = [] :=
  have hnc : ¬ ContainsDocLink (chars "plain text, zero links") :=
    fun h => absurd h.bracket (by decide)
  ⟨hnc, claim7_no_match_empty (chars "plain text, zero links") hnc⟩

/-! ### The orchestrator: missing files are warned about and skipped -/

theorem isSome_false_eq_none {o : Option (List Char)} (h : o.isSome = false) :
    o = none := by
  cases o with
  | none => rfl
  | some v => simp at h

/-- The per-key update inside `fsWrite` never changes which paths exist. -/
theorem fsRead_mapUpd_isSome (p c : List Char) :
    ∀ (fs : FS) (q : List Char),
      (fsRead (fs.map (fun e => if e.1 = p then (e.1, c) else e)) q).isSome =
        (fsRead fs q).isSome := by
  intro fs
  induction fs with
  | nil => intro q; rfl
  | cons e rest ih =>
    intro q
    simp only [List.map_cons]
    have hkey : (if e.1 = p then (e.1, c) else e).1 = e.1 := by
      by_cases hep : e.1 = p <;> simp [hep]
    simp only [fsRead, hkey]
    by_cases heq : e.1 = q
    · rw [if_pos heq, if_pos heq]
      rfl
    · rw [if_neg heq, if_neg heq]
      exact ih q

/-- Writing to an existing path changes no path's existence. -/
theorem fsWrite_isSome (fs : FS) (p c q : List Char)
    (hp : (fsRead fs p).isSome) :
    (fsRead (fsWrite fs p c) q).isSome = (fsRead fs q).isSome := by
  simp only [fsWrite, hp, if_true]
  exact fsRead_mapUpd_isSome p c fs q

/-- The set of existing paths is invariant under the whole run: the loop only
writes to paths it has just found to exist. -/
theorem processGo_domain :
    ∀ (files : List (List Char)) (fs : FS) (prevF : Option (List Char))
      (q : List Char),
      (fsRead (processGo fs prevF files).1 q).isSome = (fsRead fs q).isSome := by
  intro files
  induction files with
  | nil => intro fs prevF q; rfl
  | cons f rest ih =>
    intro fs prevF q
    simp only [processGo]
    cases hr : fsRead fs f with
    | none => exact ih fs (some f) q
    | some content =>
      have hp : (fsRead fs f).isSome := by rw [hr]; rfl
      rw [ih _ (some f) q, fsWrite_isSome fs f _ q hp]

/-- Per-file behaviour of the loop: a missing file produces its warning line
and stays missing (it is skipped, never created), an existing file produces
its update line — for every entry of the list, wherever it sits. -/
theorem processGo_log :
    ∀ (files : List (List Char)) (fs : FS) (prevF : Option (List Char))
      (p : List Char), p ∈ files →
      (fsRead fs p = none →
        (chars "Warning: " ++ p ++ chars " not found") ∈
          (processGo fs prevF files).2 ∧
        fsRead (processGo fs prevF files).1 p = none) ∧
      ((fsRead fs p).isSome →
        (chars "Updated " ++ p) ∈ (processGo fs prevF files).2) := by
  intro files
  induction files with
  | nil => intro fs prevF p hp; simp at hp
  | cons f rest ih =>
    intro fs prevF p hp
    simp only [processGo]
    cases hr : fsRead fs f with
    | none =>
      rcases List.mem_cons.mp hp with rfl | hpr
      · refine ⟨fun _ => ⟨List.mem_cons_self _ _, ?_⟩, fun hs => ?_⟩
        · have hd := processGo_domain rest fs (some p) p
          have hend : fsRead (processGo fs (some p) rest).1 p = none :=
            isSome_false_eq_none (by rw [hd, hr]; rfl)
          exact hend
        · rw [hr] at hs
          simp at hs
      · refine ⟨fun hnone => ?_, fun hs => ?_⟩
        · obtain ⟨hw, hn⟩ := (ih fs (some f) p hpr).1 hnone
          exact ⟨List.mem_cons_of_mem _ hw, hn⟩
        · exact List.mem_cons_of_mem _ ((ih fs (some f) p hpr).2 hs)
    | some content =>
      have hpf : (fsRead fs f).isSome := by rw [hr]; rfl
      rcases List.mem_cons.mp hp with rfl | hpr
      · refine ⟨fun hnone => ?_, fun _ => List.mem_cons_self _ _⟩
        rw [hnone] at hr
        exact absurd hr (by simp)
      · set fs' := fsWrite fs f
          (add_navigation_links content prevF rest.head?) with hfs'
        refine ⟨fun hnone => ?_, fun hs => ?_⟩
        · have hn' : fsRead fs' p = none := by
            refine isSome_false_eq_none ?_
            rw [fsWrite_isSome fs f _ p hpf, hnone]
            rfl
          obtain ⟨hw, hn⟩ := (ih fs' (some f) p hpr).1 hn'
          exact ⟨List.mem_cons_of_mem _ hw, hn⟩
        · have hs' : (fsRead fs' p).isSome := by
            rw [fsWrite_isSome fs f _ p hpf]
            exact hs
          exact List.mem_cons_of_mem _ ((ih fs' (some f) p hpr).2 hs')

/-- **C4**  A referenced but missing file yields the line
`"Warning: <path> not found"`, is skipped (it still does not exist at the
end — nothing was written, no failure occurred, the run being a total
function), and every referenced file that does exist yields its
`"Updated <path>"` line, regardless of missing files elsewhere in the list. -/
theorem claim4_missing_file_handling (readme : List Char) (fs : FS)
    (p : List Char) (hp : p ∈ extract_doc_links_from_readme readme) :
    (fsRead fs p = none →
      (chars "Warning: " ++ p ++ chars " not found") ∈
        (process_documentation_files readme fs).2 ∧
      fsRead (process_documentation_files readme fs).1 p = none) ∧
    ((fsRead fs p).isSome →
      (chars "Updated " ++ p) ∈ (process_documentation_files readme fs).2) :=
  processGo_log _ fs none p hp

theorem claim4_missing_file_handling_witness :
    chars "docs/miss.md" ∈ extract_doc_links_from_readme
      (chars "[a](docs/a.md) [m](docs/miss.md) [b](docs/b.md)") ∧
    fsRead [(chars "docs/a.md", chars "A"), (chars "docs/b.md", chars "B")]
      (chars "docs/miss.md") = none ∧
    (chars "Warning: " ++ chars "docs/miss.md" ++ chars " not found") ∈
      (process_documentation_files
        (chars "[a](docs/a.md) [m](docs/miss.md) [b](docs/b.md)")
        [(chars "docs/a.md", chars "A"), (chars "docs/b.md", chars "B")]).2 ∧
    (chars "Updated " ++ chars "docs/b.md") ∈
      (process_documentation_files
        (chars "[a](docs/a.md) [m](docs/miss.md) [b](docs/b.md)")
        [(chars "docs/a.md", chars "A"), (chars "docs/b.md", chars "B")]).2 :=
  ⟨by decide, by decide,
    ((claim4_missing_file_handling
      (chars "[a](docs/a.md) [m](docs/miss.md) [b](docs/b.md)")
      [(chars "docs/a.md", chars "A"), (chars "docs/b.md", chars "B")]
      (chars "docs/miss.md") (by decide)).1 (by decide)).1,
    (claim4_missing_file_handling
      (chars "[a](docs/a.md) [m](docs/miss.md) [b](docs/b.md)")
      [(chars "docs/a.md", chars "A"), (chars "docs/b.md", chars "B")]
      (chars "docs/b.md") (by decide)).2 (by decide)⟩

/-! ### Facts about stripping -/

theorem dropWhile_dropWhile (p : Char → Bool) (l : List Char) :
    (l.dropWhile p).dropWhile p = l.dropWhile p := by
  induction l with
  | nil => rfl
  | cons c rest ih =>
    by_cases hc : p c
    · rw [List.dropWhile_cons_of_pos hc]
      exact ih
    · rw [List.dropWhile_cons_of_neg hc, List.dropWhile_cons_of_neg hc]

theorem dropWhile_eq_self_of_prefix {p : Char → Bool} {v u : List Char}
    (hvu : v <+: u) (hu : u.dropWhile p = u) : v.dropWhile p = v := by
  cases v with
  | nil => rfl
  | cons c v' =>
    obtain ⟨t, ht⟩ := hvu
    have hc : ¬ p c := by
      intro hpc
      rw [← ht, List.cons_append, List.dropWhile_cons_of_pos hpc] at hu
      have hlen := congrArg List.length hu
      have hle := dropWhile_length_le p (v' ++ t)
      simp only [List.length_cons] at hlen
      omega
    exact List.dropWhile_cons_of_neg hc

/-- The stripped string is a prefix of the left-stripped string. -/
theorem stripR_front (u : List Char) :
    (u.reverse.dropWhile isPySpace).reverse <+: u := by
  have h : u.reverse.dropWhile isPySpace <:+ u.reverse :=
    List.dropWhile_suffix isPySpace
  have h2 := List.reverse_prefix.mpr h
  rwa [List.reverse_reverse] at h2

theorem pyStrip_within (l : List Char) : pyStrip l <:+: l :=
  (stripR_front (l.dropWhile isPySpace)).isInfix.trans
    (List.dropWhile_suffix isPySpace).isInfix

theorem pyStrip_idem (l : List Char) : pyStrip (pyStrip l) = pyStrip l := by
  show ((((pyStrip l).dropWhile isPySpace).reverse.dropWhile isPySpace)).reverse
      = pyStrip l
  have hA : (pyStrip l).dropWhile isPySpace = pyStrip l := by
    refine dropWhile_eq_self_of_prefix ?_ (dropWhile_dropWhile isPySpace l)
    exact stripR_front (l.dropWhile isPySpace)
  rw [hA]
  show (((l.dropWhile isPySpace).reverse.dropWhile isPySpace).reverse.reverse.dropWhile
      isPySpace).reverse = pyStrip l
  rw [List.reverse_reverse, dropWhile_dropWhile]
  rfl

/-- A string equal to its own strip neither starts nor ends in whitespace. -/
theorem pyStrip_eq_self_parts {B : List Char} (hB : pyStrip B = B) :
    B.dropWhile isPySpace = B ∧ B.reverse.dropWhile isPySpace = B.reverse := by
  unfold pyStrip at hB
  have h1 := dropWhile_length_le isPySpace B
  have h2 := dropWhile_length_le isPySpace (B.dropWhile isPySpace).reverse
  have h3 := congrArg List.length hB
  simp only [List.length_reverse] at h2 h3
  have hsL : B.dropWhile isPySpace = B :=
    (List.dropWhile_suffix isPySpace).eq_of_length (by omega)
  rw [hsL] at hB
  refine ⟨hsL, ?_⟩
  have := congrArg List.reverse hB
  rwa [List.reverse_reverse] at this

/-- Stripping the blank-line-wrapped body gives back the (already stripped)
body. -/
theorem pyStrip_wrap (B : List Char) (hB : pyStrip B = B) :
    pyStrip (['\n', '\n'] ++ B ++ ['\n', '\n', '\n']) = B := by
  obtain ⟨hL, hR⟩ := pyStrip_eq_self_parts hB
  cases B with
  | nil => decide
  | cons b B' =>
    have hb : ¬ isPySpace b := by
      intro hpb
      rw [List.dropWhile_cons_of_pos hpb] at hL
      have hlen := congrArg List.length hL
      have hle := dropWhile_length_le isPySpace B'
      simp at hlen
      omega
    show ((((['\n', '\n'] ++ (b :: B') ++ ['\n', '\n', '\n']).dropWhile
        isPySpace).reverse.dropWhile isPySpace)).reverse = b :: B'
    have hstep1 : (['\n', '\n'] ++ (b :: B') ++ ['\n', '\n', '\n']).dropWhile
        isPySpace = (b :: B') ++ ['\n', '\n', '\n'] := by
      rw [List.append_assoc]
      show (('\n' :: '\n' :: ((b :: B') ++ ['\n', '\n', '\n'])).dropWhile isPySpace) = _
      rw [List.dropWhile_cons_of_pos (by decide), List.dropWhile_cons_of_pos (by decide),
        List.cons_append, List.dropWhile_cons_of_neg hb]
    rw [hstep1]
    have hstep2 : ((b :: B') ++ ['\n', '\n', '\n']).reverse =
        '\n' :: '\n' :: '\n' :: (b :: B').reverse := by
      rw [List.reverse_append]
      rfl
    rw [hstep2, List.dropWhile_cons_of_pos (by decide),
      List.dropWhile_cons_of_pos (by decide), List.dropWhile_cons_of_pos (by decide),
      hR, List.reverse_reverse]

/-! ### Character facts for well-formed documentation paths -/

theorem titleGo_mem :
    ∀ (s : List Char) (b : Bool) (c : Char), c ∈ titleGo b s →
      ∃ d, d ∈ s ∧ (c = d ∨ c = d.toUpper ∨ c = d.toLower) := by
  intro s
  induction s with
  | nil => intro b c hc; simp [titleGo] at hc
  | cons a s ih =>
    intro b c hc
    simp only [titleGo] at hc
    by_cases ha : a.isAlpha
    · simp only [ha, if_true] at hc
      rcases List.mem_cons.mp hc with hcc | hc
      · by_cases hb : b
        · rw [hb] at hcc
          exact ⟨a, List.mem_cons_self _ _, Or.inr (Or.inr (by simpa using hcc))⟩
        · simp only [hb, if_false] at hcc
          exact ⟨a, List.mem_cons_self _ _, Or.inr (Or.inl hcc)⟩
      · obtain ⟨d, hd, hor⟩ := ih true c hc
        exact ⟨d, List.mem_cons_of_mem _ hd, hor⟩
    · simp only [ha, if_false] at hc
      rcases List.mem_cons.mp hc with hcc | hc
      · exact ⟨a, List.mem_cons_self _ _, Or.inl hcc⟩
      · obtain ⟨d, hd, hor⟩ := ih false c hc
        exact ⟨d, List.mem_cons_of_mem _ hd, hor⟩

theorem nice_no_badChar :
    ∀ d ∈ niceChars ++ [' '],
      d ≠ '\n' ∧ d.toUpper ≠ '\n' ∧ d.toLower ≠ '\n' ∧
      d ≠ '←' ∧ d.toUpper ≠ '←' ∧ d.toLower ≠ '←' := by decide

theorem niceChars_facts :
    ∀ c ∈ niceChars, c ≠ '\n' ∧ c ≠ '←' ∧ c ≠ '/' ∧ c ≠ '.' := by decide

/-- The title derived from a nice base name contains neither a newline nor a
left arrow. -/
theorem title_nice {base : List Char} (hb : ∀ c ∈ base, c ∈ niceChars) :
    ∀ c ∈ pyTitle (base.map (fun c => if c == '_' then ' ' else c)),
      c ≠ '\n' ∧ c ≠ '←' := by
  intro c hc
  obtain ⟨d, hd, hor⟩ := titleGo_mem _ false c hc
  obtain ⟨d0, hd0, hrepl⟩ := List.mem_map.mp hd
  have hdset : d ∈ niceChars ++ [' '] := by
    rw [← hrepl]
    by_cases h0 : d0 == '_'
    · rw [if_pos h0]
      exact List.mem_append_right _ (List.mem_cons_self _ _)
    · rw [if_neg h0]
      exact List.mem_append_left _ (hb d0 hd0)
  have hfacts := nice_no_badChar d hdset
  rcases hor with rfl | rfl | rfl
  · exact ⟨hfacts.1, hfacts.2.2.2.1⟩
  · exact ⟨hfacts.2.1, hfacts.2.2.2.2.1⟩
  · exact ⟨hfacts.2.2.1, hfacts.2.2.2.2.2⟩

theorem nice_pathName {base : List Char} (hbne : base ≠ [])
    (hb : ∀ c ∈ base, c ∈ niceChars) :
    pathName (chars "docs/" ++ base ++ chars ".md") = base ++ chars ".md" := by
  have h1 : (chars ".md").reverse = 'd' :: 'm' :: '.' :: [] := by decide
  have h2 : (chars "docs/").reverse = '/' :: chars "scod" := by decide
  have hmem : ∀ a ∈ base.reverse, (a != '/') = true := by
    intro a ha
    rw [List.mem_reverse] at ha
    simp only [bne_iff_ne, ne_eq]
    exact (niceChars_facts a (hb a ha)).2.2.1
  unfold pathName
  rw [List.append_assoc, List.reverse_append, List.reverse_append, h1, h2]
  rw [show ('d' :: 'm' :: '.' :: [] ++ base.reverse) ++ '/' :: chars "scod" =
    'd' :: 'm' :: '.' :: (base.reverse ++ '/' :: chars "scod") by simp]
  rw [List.dropWhile_cons_of_neg (by decide)]
  rw [List.takeWhile_cons_of_pos (by decide), List.takeWhile_cons_of_pos (by decide),
    List.takeWhile_cons_of_pos (by decide), List.takeWhile_append_of_pos hmem,
    List.takeWhile_cons_of_neg (by simp)]
  simp
  decide

theorem nice_pathStem {base : List Char} (hbne : base ≠ [])
    (hb : ∀ c ∈ base, c ∈ niceChars) :
    pathStem (chars "docs/" ++ base ++ chars ".md") = base := by
  unfold pathStem
  rw [nice_pathName hbne hb]
  dsimp only
  have hrev : (base ++ chars ".md").reverse = 'd' :: 'm' :: '.' :: base.reverse := by
    rw [List.reverse_append]
    rfl
  have htw : ((base ++ chars ".md").reverse.takeWhile (fun c => c != '.')).length
      = 2 := by
    rw [hrev, List.takeWhile_cons_of_pos (by decide),
      List.takeWhile_cons_of_pos (by decide), List.takeWhile_cons_of_neg (by simp)]
    rfl
  rw [htw]
  have hlen : (base ++ chars ".md").length = base.length + 3 := by
    simp [List.length_append]
    rfl
  have hdot : '.' ∈ base ++ chars ".md" :=
    List.mem_append_right _ (by decide)
  have hbpos : 0 < base.length := List.length_pos.mpr hbne
  rw [if_pos ?hcond]
  case hcond =>
    refine ⟨hdot, ?_, ?_⟩ <;> rw [hlen] <;> omega
  rw [hlen]
  rw [show base.length + 3 - 1 - 2 = base.length by omega]
  exact List.take_left' rfl

/-! ### The navigation entries of well-formed paths -/

theorem not_infix_of_missing_char {m l : List Char} {a : Char}
    (ha : a ∈ m) (hl : a ∉ l) : ¬ m <:+: l :=
  fun h => hl (h.sublist.subset ha)

theorem prefix_extend_right {l1 A B : List Char} (h : l1 <+: A) :
    l1 <+: A ++ B :=
  h.trans (List.prefix_append A B)

theorem prevEntry_nice {p base : List Char}
    (hp : p = chars "docs/" ++ base ++ chars ".md") (hbne : base ≠ [])
    (hb : ∀ c ∈ base, c ∈ niceChars) :
    prevEntry p = chars "[← Previous: " ++
      pyTitle (base.map (fun c => if c == '_' then ' ' else c)) ++
      chars "](" ++ (base ++ chars ".md") ++ chars ")" := by
  subst hp
  unfold prevEntry deriveTitle get_relative_link
  rw [nice_pathStem hbne hb, nice_pathName hbne hb]

theorem nextEntry_nice {p base : List Char}
    (hp : p = chars "docs/" ++ base ++ chars ".md") (hbne : base ≠ [])
    (hb : ∀ c ∈ base, c ∈ niceChars) :
    nextEntry p = chars "[Next: " ++
      pyTitle (base.map (fun c => if c == '_' then ' ' else c)) ++
      chars " →](" ++ (base ++ chars ".md") ++ chars ")" := by
  subst hp
  unfold nextEntry deriveTitle get_relative_link
  rw [nice_pathStem hbne hb, nice_pathName hbne hb]

/-- No newline and no left arrow occur in the link part `base ++ ".md"`. -/
theorem link_nice {base : List Char} (hb : ∀ c ∈ base, c ∈ niceChars) :
    ∀ c ∈ base ++ chars ".md", c ≠ '\n' ∧ c ≠ '←' := by
  intro c hc
  rcases List.mem_append.mp hc with hc | hc
  · have := niceChars_facts c (hb c hc)
    exact ⟨this.1, this.2.1⟩
  · refine ⟨?_, ?_⟩ <;> (intro he; subst he; revert hc; decide)

theorem prevEntry_facts {p base : List Char}
    (hp : p = chars "docs/" ++ base ++ chars ".md") (hbne : base ≠ [])
    (hb : ∀ c ∈ base, c ∈ niceChars) :
    '\n' ∉ prevEntry p ∧ pmark <+: prevEntry p := by
  rw [prevEntry_nice hp hbne hb]
  constructor
  · intro hmem
    simp only [List.mem_append] at hmem
    rcases hmem with ((((hmem | hmem) | hmem) | hmem) | hmem)
    · revert hmem; decide
    · exact (title_nice hb '\n' hmem).1 rfl
    · revert hmem; decide
    · exact (link_nice hb '\n' (List.mem_append.mpr hmem)).1 rfl
    · revert hmem; decide
  · refine prefix_extend_right (prefix_extend_right
      (prefix_extend_right (prefix_extend_right ?_)))
    exact List.isPrefixOf_iff_prefix.mp (by decide)

theorem nextEntry_facts {p base : List Char}
    (hp : p = chars "docs/" ++ base ++ chars ".md") (hbne : base ≠ [])
    (hb : ∀ c ∈ base, c ∈ niceChars) :
    '\n' ∉ nextEntry p ∧ nmark <+: nextEntry p ∧ ¬ pmark <:+: nextEntry p := by
  rw [nextEntry_nice hp hbne hb]
  have harrow : '←' ∉ chars "[Next: " ++
      pyTitle (base.map (fun c => if c == '_' then ' ' else c)) ++
      chars " →](" ++ (base ++ chars ".md") ++ chars ")" := by
    intro hmem
    simp only [List.mem_append] at hmem
    rcases hmem with ((((hmem | hmem) | hmem) | hmem) | hmem)
    · revert hmem; decide
    · exact (title_nice hb '←' hmem).2 rfl
    · revert hmem; decide
    · exact (link_nice hb '←' (List.mem_append.mpr hmem)).2 rfl
    · revert hmem; decide
  refine ⟨?_, ?_, ?_⟩
  · intro hmem
    simp only [List.mem_append] at hmem
    rcases hmem with ((((hmem | hmem) | hmem) | hmem) | hmem)
    · revert hmem; decide
    · exact (title_nice hb '\n' hmem).1 rfl
    · revert hmem; decide
    · exact (link_nice hb '\n' (List.mem_append.mpr hmem)).1 rfl
    · revert hmem; decide
  · refine prefix_extend_right (prefix_extend_right
      (prefix_extend_right (prefix_extend_right ?_)))
    exact List.isPrefixOf_iff_prefix.mp (by decide)
  · exact not_infix_of_missing_char (by decide) harrow

/-! ### Removing the navigation lines that a previous run inserted -/

/-- A nonempty suffix of a block ending in a newline contains a newline. -/
theorem suffix_last_nl {s l1 : List Char} (hs : s <:+ (l1 ++ ['\n']))
    (hne : s ≠ []) : '\n' ∈ s := by
  have h1 : s.reverse <+: (l1 ++ ['\n']).reverse := List.reverse_prefix.mpr hs
  rw [List.reverse_append] at h1
  obtain ⟨c, cs, hc⟩ := List.exists_cons_of_ne_nil
    (fun h => hne (by simpa using congrArg List.reverse h) : s.reverse ≠ [])
  rw [hc, show ((['\n'] : List Char).reverse ++ l1.reverse) =
    '\n' :: l1.reverse from rfl, List.cons_prefix_cons] at h1
  rw [← List.mem_reverse, hc, h1.1]
  exact List.mem_cons_self _ _

/-- No match of the marker can start inside a newline-terminated block that
does not contain the (newline-free) marker, whatever follows the block. -/
theorem skip_cond_of_block (l1 : List Char) {m l2 : List Char}
    (hmNL : '\n' ∉ m) (hni : ¬ m <:+: (l1 ++ ['\n'])) :
    ∀ s, s <:+ (l1 ++ ['\n']) → s ≠ [] → ¬ m <+: (s ++ l2) := by
  intro s hs hne hpre
  by_cases hlen : m.length ≤ s.length
  · have hms : m <+: s := by
      rw [List.prefix_iff_eq_take]
      obtain ⟨t, ht⟩ := hpre
      have h1 : (m ++ t).take m.length = m := List.take_left' rfl
      rw [ht, List.take_append_of_le_length hlen] at h1
      exact h1.symm
    exact hni (hms.isInfix.trans hs.isInfix)
  · push_neg at hlen
    have hsm : s <+: m := by
      rw [List.prefix_iff_eq_take]
      obtain ⟨t, ht⟩ := hpre
      have h1 : (s ++ l2).take s.length = s := List.take_left' rfl
      rw [← ht, List.take_append_of_le_length (Nat.le_of_lt hlen)] at h1
      exact h1.symm
    exact hmNL (hsm.mem (suffix_last_nl hs hne))

/-- A marker starting with `'['` is not an infix of `"\n"`. -/
theorem bracket_marker_not_in_nl {m : List Char} (hmt : ∃ t, m = '[' :: t) :
    ¬ m <:+: (['\n'] : List Char) := by
  obtain ⟨t, rfl⟩ := hmt
  intro h
  rcases List.infix_cons_iff.mp h with h | h
  · rw [List.cons_prefix_cons] at h
    exact absurd h.1 (by decide)
  · exact absurd (List.infix_nil.mp h) (by simp)

/-- A newline-free nonempty marker absent from `NAV` and from `B` is absent
from the whole wrapped output. -/
theorem not_infix_wrapped {m NAV B : List Char} (hm : m ≠ []) (hmNL : '\n' ∉ m)
    (hNAV : ¬ m <:+: NAV) (hB : ¬ m <:+: B) :
    ¬ m <:+: (['\n'] ++ NAV ++ ['\n', '\n'] ++ B ++ ['\n', '\n'] ++ NAV ++
      ['\n', '\n']) := by
  intro h
  have hy : (['\n'] ++ NAV ++ ['\n', '\n'] ++ B ++ ['\n', '\n'] ++ NAV ++
      ['\n', '\n']) =
      [] ++ '\n' :: (NAV ++ '\n' :: (([] : List Char) ++ '\n' ::
        (B ++ '\n' :: (([] : List Char) ++ '\n' ::
          (NAV ++ '\n' :: (([] : List Char) ++ '\n' :: ([] : List Char))))))) := by
    simp
  rw [hy] at h
  rcases infix_split_nl hm hmNL [] _ h with h | h
  · exact hm (List.infix_nil.mp h)
  rcases infix_split_nl hm hmNL NAV _ h with h | h
  · exact hNAV h
  rcases infix_split_nl hm hmNL [] _ h with h | h
  · exact hm (List.infix_nil.mp h)
  rcases infix_split_nl hm hmNL B _ h with h | h
  · exact hB h
  rcases infix_split_nl hm hmNL [] _ h with h | h
  · exact hm (List.infix_nil.mp h)
  rcases infix_split_nl hm hmNL NAV _ h with h | h
  · exact hNAV h
  rcases infix_split_nl hm hmNL [] _ h with h | h
  · exact hm (List.infix_nil.mp h)
  · exact hm (List.infix_nil.mp h)

/-- The same, for the block between two navigation lines. -/
theorem not_infix_body_block {m B : List Char} (hm : m ≠ []) (hmNL : '\n' ∉ m)
    (hB : ¬ m <:+: B) :
    ¬ m <:+: (('\n' :: B) ++ ['\n']) := by
  intro h
  have hy : (('\n' :: B) ++ ['\n']) =
      [] ++ '\n' :: (B ++ '\n' :: ([] : List Char)) := by
    simp
  rw [hy] at h
  rcases infix_split_nl hm hmNL [] _ h with h | h
  · exact hm (List.infix_nil.mp h)
  rcases infix_split_nl hm hmNL B _ h with h | h
  · exact hB h
  · exact hm (List.infix_nil.mp h)

/-- One full `re.sub` pass over the wrapped output when the marker heads the
navigation line: both navigation lines are removed. -/
theorem reSub_wrapped (m NAV B : List Char) (hmt : ∃ t, m = '[' :: t)
    (hmNL : '\n' ∉ m) (hNL : '\n' ∉ NAV) (hB : ¬ m <:+: B)
    (hpre : m <+: NAV) :
    reSubLine m (['\n'] ++ NAV ++ ['\n', '\n'] ++ B ++ ['\n', '\n'] ++ NAV ++
      ['\n', '\n']) = ['\n', '\n'] ++ B ++ ['\n', '\n', '\n'] := by
  obtain ⟨mt, hmteq⟩ := hmt
  have hm : m ≠ [] := by rw [hmteq]; simp
  have hskipNL : ∀ (l2 : List Char) (s : List Char),
      s <:+ (['\n'] : List Char) → s ≠ [] → ¬ m <+: (s ++ l2) := fun l2 =>
    skip_cond_of_block [] hmNL (bracket_marker_not_in_nl ⟨mt, hmteq⟩)
  have hy : (['\n'] ++ NAV ++ ['\n', '\n'] ++ B ++ ['\n', '\n'] ++ NAV ++
      ['\n', '\n']) = ['\n'] ++ (NAV ++ '\n' ::
        ((('\n' :: (B ++ ['\n'])) ++ ('\n' :: (NAV ++ '\n' :: ['\n']))))) := by
    simp
  rw [hy]
  rw [reSubLine_append m ['\n'] _ (hskipNL _)]
  rw [reSubLine_matchStep m NAV _ hm hpre hNL]
  rw [reSubLine_append m ('\n' :: (B ++ ['\n'])) _
    (skip_cond_of_block ('\n' :: B) hmNL (not_infix_body_block hm hmNL hB))]
  rw [show ('\n' : Char) :: (NAV ++ '\n' :: ['\n']) =
    ['\n'] ++ (NAV ++ '\n' :: ['\n']) from rfl]
  rw [reSubLine_append m ['\n'] _ (hskipNL _)]
  rw [reSubLine_matchStep m NAV _ hm hpre hNL]
  rw [reSubLine_noMatch m ['\n'] (bracket_marker_not_in_nl ⟨mt, hmteq⟩)]
  simp

/-- One full `re.sub` pass over the wrapped output when the marker occurs
nowhere in it: nothing changes. -/
theorem reSub_wrapped_noop (m NAV B : List Char) (hm : m ≠ [])
    (hmNL : '\n' ∉ m) (hNAV : ¬ m <:+: NAV) (hB : ¬ m <:+: B) :
    reSubLine m (['\n'] ++ NAV ++ ['\n', '\n'] ++ B ++ ['\n', '\n'] ++ NAV ++
      ['\n', '\n']) =
      ['\n'] ++ NAV ++ ['\n', '\n'] ++ B ++ ['\n', '\n'] ++ NAV ++
      ['\n', '\n'] :=
  reSubLine_noMatch m _ (not_infix_wrapped hm hmNL hNAV hB)

/-- One full `re.sub` pass over the already reduced body block when the marker
does not occur in the body: nothing changes. -/
theorem reSub_reduced_noop (m B : List Char) (hm : m ≠ []) (hmNL : '\n' ∉ m)
    (hB : ¬ m <:+: B) :
    reSubLine m (['\n', '\n'] ++ B ++ ['\n', '\n', '\n']) =
      ['\n', '\n'] ++ B ++ ['\n', '\n', '\n'] := by
  refine reSubLine_noMatch m _ ?_
  intro h
  have hy : (['\n', '\n'] ++ B ++ ['\n', '\n', '\n']) =
      [] ++ '\n' :: (([] : List Char) ++ '\n' :: (B ++ '\n' ::
        (([] : List Char) ++ '\n' :: (([] : List Char) ++ '\n' ::
          ([] : List Char))))) := by
    simp
  rw [hy] at h
  rcases infix_split_nl hm hmNL [] _ h with h | h
  · exact hm (List.infix_nil.mp h)
  rcases infix_split_nl hm hmNL [] _ h with h | h
  · exact hm (List.infix_nil.mp h)
  rcases infix_split_nl hm hmNL B _ h with h | h
  · exact hB h
  rcases infix_split_nl hm hmNL [] _ h with h | h
  · exact hm (List.infix_nil.mp h)
  rcases infix_split_nl hm hmNL [] _ h with h | h
  · exact hm (List.infix_nil.mp h)
  · exact hm (List.infix_nil.mp h)

/-! ### Idempotence of the injector -/

/-- **C1 counterexample**  The injector is not idempotent for every content
string: content ending in a marker with no following newline (here
`"[Next: b"`) survives the first stripping pass, but the output format appends
a newline after it, so the second application deletes it. -/
theorem claim1_counterexample :
    add_navigation_links
        (add_navigation_links (chars "[Next: b") none (some (chars "docs/b.md")))
        none (some (chars "docs/b.md")) ≠
      add_navigation_links (chars "[Next: b") none (some (chars "docs/b.md")) := by
  decide

/-- **C1 (amended)**  Applying the injector twice equals applying it once,
with the same neighbour arguments, provided the content contains neither
`"← Previous:"` nor `"Next:"` as a substring and each present neighbour is a
well-formed documentation path `docs/<base>.md` over letters, digits and
underscores. -/
theorem claim1_idempotent_amended (content : List Char)
    (prev next : Option (List Char)) (hp : OkNeighbor prev) (hn : OkNeighbor next)
    (h1 : containsSub checkPrevS content = false)
    (h2 : containsSub checkNextS content = false) :
    add_navigation_links (add_navigation_links content prev next) prev next =
      add_navigation_links content prev next := by
  by_cases hnav : navEntries prev next = []
  · have hid : ∀ c, add_navigation_links c prev next = c := by
      intro c
      simp [add_navigation_links, hnav]
    rw [hid, hid]
  · have hpm_cons : pmark = '[' :: checkPrevS := by decide
    have hnm_cons : nmark = '[' :: checkNextS := by decide
    have hpmNL : '\n' ∉ pmark := by decide
    have hnmNL : '\n' ∉ nmark := by decide
    have hpmne : pmark ≠ [] := by decide
    have hnmne : nmark ≠ [] := by decide
    have hBp : ¬ pmark <:+: pyStrip content := by
      intro h
      have h3 : checkPrevS <:+: content :=
        ((containsSub_iff checkPrevS pmark).mp (by decide)).trans
          (h.trans (pyStrip_within content))
      rw [← containsSub_iff, h1] at h3
      exact Bool.noConfusion h3
    have hBn : ¬ nmark <:+: pyStrip content := by
      intro h
      have h3 : checkNextS <:+: content :=
        ((containsSub_iff checkNextS nmark).mp (by decide)).trans
          (h.trans (pyStrip_within content))
      rw [← containsSub_iff, h2] at h3
      exact Bool.noConfusion h3
    have hNAV : '\n' ∉ navLine prev next ∧
        (pmark <+: navLine prev next ∨
          (¬ pmark <:+: navLine prev next ∧ nmark <+: navLine prev next)) := by
      cases prev with
      | none =>
        cases next with
        | none => exact absurd rfl hnav
        | some n =>
          obtain ⟨base, hpn, hbne, hb⟩ := hn
          have hnne : n ≠ [] := by
            rw [hpn]
            exact List.append_ne_nil_of_right_ne_nil _ (by decide)
          obtain ⟨hnl, hnpre, hnoinf⟩ := nextEntry_facts hpn hbne hb
          have hline : navLine none (some n) = nextEntry n := by
            unfold navLine
            rw [navEntries_none_some n hnne]
            rfl
          rw [hline]
          exact ⟨hnl, Or.inr ⟨hnoinf, hnpre⟩⟩
      | some p =>
        obtain ⟨base, hpp, hbne, hb⟩ := hp
        have hpne : p ≠ [] := by
          rw [hpp]
          exact List.append_ne_nil_of_right_ne_nil _ (by decide)
        obtain ⟨hplnl, hppre⟩ := prevEntry_facts hpp hbne hb
        cases next with
        | none =>
          have hline : navLine (some p) none = prevEntry p := by
            unfold navLine
            rw [navEntries_some_none p hpne]
            rfl
          rw [hline]
          exact ⟨hplnl, Or.inl hppre⟩
        | some n =>
          obtain ⟨base2, hpn, hbne2, hb2⟩ := hn
          have hnne : n ≠ [] := by
            rw [hpn]
            exact List.append_ne_nil_of_right_ne_nil _ (by decide)
          obtain ⟨hnlnl, -, -⟩ := nextEntry_facts hpn hbne2 hb2
          have hline : navLine (some p) (some n) =
              prevEntry p ++ chars " | " ++ nextEntry n := by
            unfold navLine
            rw [navEntries_some_some p n hpne hnne]
            rfl
          rw [hline]
          constructor
          · intro hmem
            rcases List.mem_append.mp hmem with hmem | hmem
            · rcases List.mem_append.mp hmem with hmem | hmem
              · exact hplnl hmem
              · revert hmem; decide
            · exact hnlnl hmem
          · exact Or.inl (prefix_extend_right (prefix_extend_right hppre))
    obtain ⟨hNL, hdisj⟩ := hNAV
    have hclean1 : cleanNavLines content = content := by
      unfold cleanNavLines
      rw [h1, h2]
      rfl
    have hout1 : add_navigation_links content prev next =
        ['\n'] ++ navLine prev next ++ ['\n', '\n'] ++ pyStrip content ++
          ['\n', '\n'] ++ navLine prev next ++ ['\n', '\n'] := by
      rw [add_navigation_links_pos content prev next hnav, hclean1]
    have hNAVinY : navLine prev next <:+: add_navigation_links content prev next := by
      rw [hout1]
      exact ⟨['\n'], ['\n', '\n'] ++ pyStrip content ++ ['\n', '\n'] ++
        navLine prev next ++ ['\n', '\n'], by simp⟩
    have hcheck2 : (containsSub checkPrevS (add_navigation_links content prev next) ||
        containsSub checkNextS (add_navigation_links content prev next)) = true := by
      rw [Bool.or_eq_true]
      rcases hdisj with hpm | ⟨-, hnm⟩
      · refine Or.inl ((containsSub_iff _ _).mpr ?_)
        refine List.IsInfix.trans ?_ hNAVinY
        refine List.IsInfix.trans ⟨['['], [], by rw [hpm_cons]; simp⟩ hpm.isInfix
      · refine Or.inr ((containsSub_iff _ _).mpr ?_)
        refine List.IsInfix.trans ?_ hNAVinY
        refine List.IsInfix.trans ⟨['['], [], by rw [hnm_cons]; simp⟩ hnm.isInfix
    have hsub : reSubLine nmark (reSubLine pmark
        (add_navigation_links content prev next)) =
        ['\n', '\n'] ++ pyStrip content ++ ['\n', '\n', '\n'] := by
      rw [hout1]
      rcases hdisj with hpm | ⟨hnpm, hnm⟩
      · rw [reSub_wrapped pmark _ _ ⟨checkPrevS, hpm_cons⟩ hpmNL hNL hBp hpm]
        exact reSub_reduced_noop nmark _ hnmne hnmNL hBn
      · rw [reSub_wrapped_noop pmark _ _ hpmne hpmNL hnpm hBp]
        exact reSub_wrapped nmark _ _ ⟨checkNextS, hnm_cons⟩ hnmNL hNL hBn hnm
    have hclean2 : cleanNavLines (add_navigation_links content prev next) =
        ['\n', '\n'] ++ pyStrip content ++ ['\n', '\n', '\n'] := by
      unfold cleanNavLines
      rw [hcheck2, if_pos rfl]
      exact hsub
    have hstrip2 : pyStrip (cleanNavLines (add_navigation_links content prev next)) =
        pyStrip content := by
      rw [hclean2]
      exact pyStrip_wrap (pyStrip content) (pyStrip_idem content)
    rw [add_navigation_links_pos _ prev next hnav, hstrip2, hout1]

theorem claim1_idempotent_amended_witness :
    OkNeighbor (some (chars "docs/alpha_one.md")) ∧
    OkNeighbor (some (chars "docs/beta.md")) ∧
    containsSub checkPrevS (chars "Hello docs") = false ∧
    containsSub checkNextS (chars "Hello docs") = false ∧
    add_navigation_links (add_navigation_links (chars "Hello docs")
        (some (chars "docs/alpha_one.md")) (some (chars "docs/beta.md")))
        (some (chars "docs/alpha_one.md")) (some (chars "docs/beta.md")) =
      add_navigation_links (chars "Hello docs")
        (some (chars "docs/alpha_one.md")) (some (chars "docs/beta.md")) :=
  ⟨⟨chars "alpha_one", by decide, by decide, by decide⟩,
    ⟨chars "beta", by decide, by decide, by decide⟩,
    by decide, by decide,
    claim1_idempotent_amended (chars "Hello docs")
      (some (chars "docs/alpha_one.md")) (some (chars "docs/beta.md"))
      ⟨chars "alpha_one", by decide, by decide, by decide⟩
      ⟨chars "beta", by decide, by decide, by decide⟩ (by decide) (by decide)⟩
